import Mathlib

/-!
Shallow embedding of the heuristic generation pipeline of `app.py`
(sentence splitting, keyword extraction, assignment-prompt templating,
multiple-choice question synthesis), together with theorems settling the
specification claims about it.

Text is modelled as `List Char` (the ASCII fragment of Python's `str`
operations).  The process-wide random source used by the quiz builder is
modelled as an arbitrary family of permutations (for `random.shuffle`)
and an arbitrary stream of indices (for `random.choice`), so that
properties quantified over every behaviour of the random source can be
stated and adversarial behaviours can be exhibited.
-/

namespace AQG

abbrev Str := List Char

/-- ASCII uppercase letter test (the `A-Z` part of the regex classes). -/
def isAsciiUpper (c : Char) : Bool := 65 ≤ c.toNat && c.toNat ≤ 90

/-- ASCII lowercase letter test (the `a-z` part of the regex classes). -/
def isAsciiLower (c : Char) : Bool := 97 ≤ c.toNat && c.toNat ≤ 122

/-- ASCII letter test: the regex character class `[a-zA-Z]`. -/
def isAsciiAlpha (c : Char) : Bool := isAsciiUpper c || isAsciiLower c

/-- ASCII digit test (the `0-9` part of the `\w` class). -/
def isAsciiDigit (c : Char) : Bool := 48 ≤ c.toNat && c.toNat ≤ 57

/-- Python regex word character `\w` (ASCII fragment): letter, digit or underscore. -/
def isWordChar (c : Char) : Bool := isAsciiAlpha c || isAsciiDigit c || c = '_'

/-- Python whitespace `\s` (ASCII fragment): space, tab, newline, CR, VT, FF. -/
def isPySpace (c : Char) : Bool :=
  c = ' ' || c = '\t' || c = '\n' || c = '\r' || c.toNat = 11 || c.toNat = 12

/-- Python `str.lower` on one character (ASCII fragment): shift `A-Z` by 32. -/
def lowerChar (c : Char) : Char :=
  if isAsciiUpper c then Char.ofNat (c.toNat + 32) else c

/-- Python `str.strip()`: drop leading and trailing whitespace. -/
def pyStrip (l : Str) : Str :=
  ((l.dropWhile isPySpace).reverse.dropWhile isPySpace).reverse

/-- Python `str.rstrip()`: drop trailing whitespace. -/
def pyRStrip (l : Str) : Str :=
  (l.reverse.dropWhile isPySpace).reverse

/-- Worker for whitespace collapsing: `inRun` records whether the previous
character belonged to a whitespace run (whose single replacement space has
already been emitted). -/
def collapseAux : Bool → Str → Str
  | _, [] => []
  | inRun, c :: cs =>
    if isPySpace c then
      if inRun then collapseAux true cs else ' ' :: collapseAux true cs
    else c :: collapseAux false cs

/-- `re.sub(r"\s+", " ", ·)`: collapse every whitespace run to one space. -/
def collapseWS (l : Str) : Str := collapseAux false l

/-- Sentence-terminating punctuation: `.`, `!` or `?`. -/
def isTerm (c : Char) : Bool := c = '.' || c = '!' || c = '?'

/-- Does the reversed segment accumulator end in a sentence terminator
(that is, was the previous character `.`, `!` or `?`)? -/
def accEndsTerm : Str → Bool
  | [] => false
  | t :: _ => isTerm t

/-- Worker for `re.split(r"(?<=[.!?])\s+", ·)` on whitespace-collapsed text:
`acc` holds the current segment reversed; a whitespace following a
terminator closes the segment and is consumed. -/
def splitSentAux : Str → Str → List Str
  | acc, [] => [acc.reverse]
  | acc, c :: cs =>
    if isPySpace c && accEndsTerm acc then
      acc.reverse :: splitSentAux [] cs
    else
      splitSentAux (c :: acc) cs

/-- Does the text contain a sentence terminator immediately followed by a
whitespace character (the pattern at which `split_sentences` cuts)? -/
def hasCutPair : Str → Bool
  | [] => false
  | [_] => false
  | a :: b :: rest => (isTerm a && isPySpace b) || hasCutPair (b :: rest)

/-- `split_sentences` from `app.py`: normalise whitespace, split after
terminal punctuation followed by whitespace, strip parts, drop empties. -/
def split_sentences (text : Str) : List Str :=
  let t := collapseWS (pyStrip text)
  let parts := splitSentAux [] t
  (parts.map pyStrip).filter (fun p => !p.isEmpty)

/-- The fixed stopword set of `extract_keywords`. -/
def stopwords : List Str :=
  [("the").data, ("and").data, ("is").data, ("in").data, ("to").data,
   ("of").data, ("a").data, ("an").data, ("for").data, ("on").data,
   ("with").data, ("that").data, ("this").data, ("are").data, ("as").data,
   ("by").data, ("from").data, ("be").data, ("or").data, ("it").data,
   ("we").data, ("you").data, ("they").data, ("which").data]

/-- Worker for word segmentation: `acc` is the current word-character run,
reversed; a non-word character (or the end of input) closes the run. -/
def wordRunsAux : Str → Str → List Str
  | acc, [] => if acc.isEmpty then [] else [acc.reverse]
  | acc, c :: cs =>
    if isWordChar c then wordRunsAux (c :: acc) cs
    else if acc.isEmpty then wordRunsAux [] cs
    else acc.reverse :: wordRunsAux [] cs

/-- Maximal runs of word characters in a text (the word segmentation that
`\b`-delimited regex matches operate on). -/
def wordRuns (l : Str) : List Str := wordRunsAux [] l

/-- `re.findall(r"\b[a-zA-Z]{3,}\b", text.lower())`: maximal word-character
runs of the lowered text that are entirely alphabetic and of length ≥ 3. -/
def findAlphaWords (text : Str) : List Str :=
  (wordRuns (text.map lowerChar)).filter
    (fun w => decide (3 ≤ w.length) && w.all isAsciiAlpha)

/-- Worker for first-occurrence deduplication, fuelled by the length of the
list so that the recursion is structural: keep the head, remove its later
occurrences, continue. -/
def dedupAux : Nat → List Str → List Str
  | _, [] => []
  | 0, _ :: _ => []
  | n + 1, x :: xs => x :: dedupAux n (xs.filter (fun y => y ≠ x))

/-- First-occurrence deduplication, as performed by `dict.fromkeys` and by
`collections.Counter` key insertion order. -/
def dedupFirst (l : List Str) : List Str := dedupAux l.length l

/-- Descending-count comparison used to model `Counter.most_common`
(a stable sort of the counter items by count, largest first). -/
def cntRel (cand : List Str) (a b : Str) : Prop := cand.count b ≤ cand.count a

instance (cand : List Str) : DecidableRel (cntRel cand) :=
  fun _ _ => Nat.decLe _ _

instance (c : List Str) : IsTotal Str (cntRel c) :=
  ⟨fun a b => Nat.le_total (c.count b) (c.count a)⟩

instance (c : List Str) : IsTrans Str (cntRel c) :=
  ⟨fun _ _ _ hab hbd => Nat.le_trans hbd hab⟩

/-- The candidate token stream of `extract_keywords`: alphabetic words of
the lowered text with stopwords removed. -/
def kwCandidates (text : Str) : List Str :=
  (findAlphaWords text).filter (fun w => decide (w ∉ stopwords))

/-- `extract_keywords` from `app.py`: lowercase, take alphabetic tokens of
length ≥ 3, drop stopwords, count, return the `top_n` most common
(`Counter.most_common` is a stable descending sort by count of the
distinct candidates in first-occurrence order). -/
def extract_keywords (text : Str) (top_n : Nat) : List Str :=
  (List.insertionSort (cntRel (kwCandidates text))
    (dedupFirst (kwCandidates text))).take top_n

/-- Descending-length comparison used to model
`sorted(sentences, key=len, reverse=True)` (a stable sort). -/
def lenRel (a b : Str) : Prop := b.length ≤ a.length

instance : DecidableRel lenRel := fun _ _ => Nat.decLe _ _

/-- Template of the first (excerpt-based) assignment prompt. -/
def mkExcerpt (excerpt : Str) : Str :=
  ("Read the following excerpt and write a 800-1200 word essay: \"").data
    ++ excerpt
    ++ ("\". Discuss its main claims and implications, and relate them to broader concepts from the document.").data

/-- Fixed fallback for the first prompt when there are no sentences. -/
def fallbackExcerptPrompt : Str :=
  ("Write an 800-1200 word essay summarising the main ideas of the provided text, identifying two areas for further investigation.").data

/-- Template of the second (compare-and-contrast) assignment prompt. -/
def mkCompare (k1 k2 : Str) : Str :=
  ("Compare and contrast the roles of \x27").data ++ k1
    ++ ("\x27 and \x27").data ++ k2
    ++ ("\x27 as presented in the text. In your answer, evaluate strengths and weaknesses of the arguments and suggest practical applications or experiments to test them.").data

/-- Fixed fallback for the second prompt when fewer than 2 keywords exist. -/
def fallbackComparePrompt : Str :=
  ("Identify two central themes from the document and critically evaluate their significance. Provide examples and suggest follow-up questions.").data

/-- `make_assignment_prompts` from `app.py`: stable-sort sentences by
length descending; first prompt embeds the head truncated to 240
characters and right-stripped, or a fixed fallback; second prompt embeds
the top two keywords, or a fixed fallback. -/
def make_assignment_prompts (sentences keywords : List Str) : List Str :=
  let long_sents := List.insertionSort lenRel sentences
  let p1 := match long_sents with
    | [] => fallbackExcerptPrompt
    | s0 :: _ => mkExcerpt (pyRStrip (s0.take 240))
  let p2 :=
    if 2 ≤ keywords.length then
      mkCompare (keywords.getD 0 []) (keywords.getD 1 [])
    else
      fallbackComparePrompt
  [p1, p2]

/-- A multiple-choice question: question text, option list, index of the
correct option. -/
abbrev MCQ := Str × List Str × Nat

/-- A behaviour of the process-wide random source, as consumed by
`generate_mcqs`: `shufAll` is the outcome of `random.shuffle` on the
distractor universe, `shufOpts i` the outcome of the option shuffle of
question `i`, and `pick i t` drives the `t`-th `random.choice` of
question `i` (reduced modulo the list length).  Shuffle outcomes are
constrained to be permutations, which is exactly the set of possible
behaviours of `random.shuffle`. -/
structure RandGen where
  shufAll : List Str → List Str
  shufOpts : Nat → List Str → List Str
  pick : Nat → Nat → Nat
  shufAll_perm : ∀ l, (shufAll l).Perm l
  shufOpts_perm : ∀ i l, (shufOpts i l).Perm l

/-- The fixed fallback pool of `generate_mcqs`. -/
def fallbackPool : List Str :=
  [("concept").data, ("method").data, ("result").data, ("theory").data,
   ("model").data]

/-- `pool = keywords[:] or ["concept", ...]` from `generate_mcqs`. -/
def mcqPool (keywords : List Str) : List Str :=
  if keywords.isEmpty then fallbackPool else keywords

/-- `random.choice(terms)` under behaviour index `r`: an arbitrary element
of the (non-empty) list. -/
def pyChoice (terms : List Str) (r : Nat) : Str :=
  terms.getD (r % terms.length) []

/-- The distractor sampling loop of `generate_mcqs`: up to 30 attempts
(`tries` counts up, `fuel` makes the recursion structural and is started
at 30, so it never runs out before the `tries < 30` guard stops the
loop); stop early once 3 distractors are collected; a candidate is kept
when it differs from the correct answer and is not already chosen. -/
def distractorLoop (pickIdx : Nat → Nat) (terms : List Str) (correct : Str) :
    Nat → Nat → List Str → List Str
  | 0, _, ds => ds
  | fuel + 1, tries, ds =>
    if ds.length < 3 ∧ tries < 30 then
      let candidate := pyChoice terms (pickIdx tries)
      distractorLoop pickIdx terms correct fuel (tries + 1)
        (if candidate ≠ correct ∧ candidate ∉ ds then ds ++ [candidate] else ds)
    else ds

/-- Python `list.index`: position of the first occurrence of `a` (only
used on lists containing `a`, as in the source). -/
def listIndex (a : Str) : List Str → Nat
  | [] => 0
  | x :: xs => if x = a then 0 else listIndex a xs + 1

/-- The question-text template of `generate_mcqs`. -/
def mkQuestionText (correct : Str) : Str :=
  ("Which of the following best describes the term \x27").data
    ++ correct
    ++ ("\x27 as used in the document?").data

/-- `generate_mcqs` from `app.py` under random behaviour `g`: build the
pool and the shuffled deduplicated distractor universe (pool terms plus
their `+"s"` pluralisations), then for each `i < 3` take the correct
answer `pool[i % len(pool)]`, sample distractors, shuffle the options and
record the index of the correct answer. -/
def generate_mcqs (g : RandGen) (keywords : List Str) : List MCQ :=
  let pool := mcqPool keywords
  let all_terms := g.shufAll (dedupFirst (pool ++ pool.map (fun k => k ++ [ 's' ])))
  (List.range 3).map (fun i =>
    let correct := pool.getD (i % pool.length) []
    let distractors := distractorLoop (g.pick i) all_terms correct 30 0 []
    let options := g.shufOpts i (distractors.take 3 ++ [correct])
    (mkQuestionText correct, options, listIndex correct options))

/-- `generate_from_text` from `app.py`: the full heuristic pipeline. -/
def generate_from_text (g : RandGen) (text : Str) : List Str × List MCQ :=
  let sentences := split_sentences text
  let keywords := extract_keywords text 8
  (make_assignment_prompts sentences keywords, generate_mcqs g keywords)

/-! ### Helper lemmas about the quiz builder -/

/-- A concrete possible behaviour of the random source: every shuffle
leaves its input unchanged and every choice takes the first element. -/
def idRand : RandGen :=
  ⟨fun l => l, fun _ l => l, fun _ _ => 0,
   fun l => List.Perm.refl l, fun _ l => List.Perm.refl l⟩

theorem listIndex_lt {a : Str} {l : List Str} (h : a ∈ l) : listIndex a l < l.length := by
  induction l with
  | nil => cases h
  | cons x xs ih =>
    by_cases hx : x = a
    · simp [listIndex, hx]
    · rcases List.mem_cons.mp h with h' | h'
      · exact absurd h'.symm hx
      · simpa [listIndex, hx] using ih h'

theorem getD_listIndex {a : Str} {l : List Str} (h : a ∈ l) (d : Str) :
    l.getD (listIndex a l) d = a := by
  induction l with
  | nil => cases h
  | cons x xs ih =>
    by_cases hx : x = a
    · simp [listIndex, hx]
    · rcases List.mem_cons.mp h with h' | h'
      · exact absurd h'.symm hx
      · simpa [listIndex, hx] using ih h'

theorem distractorLoop_inv (p : Nat → Nat) (terms : List Str) (correct : Str) :
    ∀ fuel tries ds, correct ∉ ds → ds.Nodup → ds.length ≤ 3 →
      correct ∉ distractorLoop p terms correct fuel tries ds ∧
      (distractorLoop p terms correct fuel tries ds).Nodup ∧
      (distractorLoop p terms correct fuel tries ds).length ≤ 3 := by
  intro fuel
  induction fuel with
  | zero =>
    intro tries ds h1 h2 h3
    exact ⟨h1, h2, h3⟩
  | succ n ih =>
    intro tries ds h1 h2 h3
    rw [distractorLoop]
    by_cases hc : ds.length < 3 ∧ tries < 30
    · rw [if_pos hc]
      dsimp only
      set cand := pyChoice terms (p tries) with hcand
      by_cases hk : cand ≠ correct ∧ cand ∉ ds
      · rw [if_pos hk]
        refine ih (tries + 1) (ds ++ [cand]) ?_ ?_ ?_
        · simp only [List.mem_append, List.mem_singleton]
          rintro (h | h)
          · exact h1 h
          · exact hk.1 h.symm
        · simp [List.nodup_append, h2, hk.2]
        · simp only [List.length_append, List.length_singleton]
          omega
      · rw [if_neg hk]
        exact ih (tries + 1) ds h1 h2 h3
    · rw [if_neg hc]
      exact ⟨h1, h2, h3⟩

theorem generate_mcqs_getD (g : RandGen) (kws : List Str) (i : Nat) (h : i < 3) :
    (generate_mcqs g kws).getD i ([], [], 0) =
      (let pool := mcqPool kws
       let all_terms := g.shufAll (dedupFirst (pool ++ pool.map (fun k => k ++ [ 's' ])))
       let correct := pool.getD (i % pool.length) []
       let distractors := distractorLoop (g.pick i) all_terms correct 30 0 []
       let options := g.shufOpts i (distractors.take 3 ++ [correct])
       (mkQuestionText correct, options, listIndex correct options)) := by
  interval_cases i <;> rfl

theorem mcq_props (g : RandGen) (kws : List Str) (i : Nat) (h : i < 3) :
    (((generate_mcqs g kws).getD i ([], [], 0)).1 =
       mkQuestionText ((mcqPool kws).getD (i % (mcqPool kws).length) [])) ∧
    ((generate_mcqs g kws).getD i ([], [], 0)).2.1.Nodup ∧
    ((mcqPool kws).getD (i % (mcqPool kws).length) []) ∈
      ((generate_mcqs g kws).getD i ([], [], 0)).2.1 ∧
    ((generate_mcqs g kws).getD i ([], [], 0)).2.1.count
      ((mcqPool kws).getD (i % (mcqPool kws).length) []) = 1 ∧
    1 ≤ ((generate_mcqs g kws).getD i ([], [], 0)).2.1.length ∧
    ((generate_mcqs g kws).getD i ([], [], 0)).2.1.length ≤ 4 ∧
    ((generate_mcqs g kws).getD i ([], [], 0)).2.2 <
      ((generate_mcqs g kws).getD i ([], [], 0)).2.1.length ∧
    ((generate_mcqs g kws).getD i ([], [], 0)).2.1.getD
      ((generate_mcqs g kws).getD i ([], [], 0)).2.2 [] =
      ((mcqPool kws).getD (i % (mcqPool kws).length) []) := by
  rw [generate_mcqs_getD g kws i h]
  dsimp only
  set pool := mcqPool kws with hpool
  set correct := pool.getD (i % pool.length) [] with hcorrect
  set terms := g.shufAll (dedupFirst (pool ++ pool.map (fun k => k ++ [ 's' ]))) with hterms
  set ds := distractorLoop (g.pick i) terms correct 30 0 [] with hds
  obtain ⟨hnm, hnd, hlen⟩ := distractorLoop_inv (g.pick i) terms correct 30 0 []
    (by simp) (by simp) (by simp)
  have hnm3 : correct ∉ ds.take 3 := fun hx => hnm ((List.take_sublist 3 ds).subset hx)
  have hbase_nodup : (ds.take 3 ++ [correct]).Nodup := by
    simp [List.nodup_append, (List.take_sublist 3 ds).nodup hnd, hnm3]
  have hbase_mem : correct ∈ ds.take 3 ++ [correct] := by simp
  have hbase_count : (ds.take 3 ++ [correct]).count correct = 1 := by
    simp [List.count_append, List.count_eq_zero_of_not_mem hnm3]
  have hbase_len4 : (ds.take 3 ++ [correct]).length ≤ 4 := by
    simp only [List.length_append, List.length_take, List.length_singleton]
    omega
  have hperm := g.shufOpts_perm i (ds.take 3 ++ [correct])
  set opts := g.shufOpts i (ds.take 3 ++ [correct]) with hopts
  have hmem : correct ∈ opts := hperm.mem_iff.mpr hbase_mem
  have hidx : listIndex correct opts < opts.length := listIndex_lt hmem
  refine ⟨rfl, hperm.nodup_iff.mpr hbase_nodup, hmem, ?_, ?_, ?_, hidx, getD_listIndex hmem []⟩
  · calc List.count correct opts
        = List.countP (fun x => x == correct) opts := rfl
      _ = List.countP (fun x => x == correct) (ds.take 3 ++ [correct]) := hperm.countP_eq _
      _ = 1 := hbase_count
  · rw [hperm.length_eq]
    simp
  · rw [hperm.length_eq]
    exact hbase_len4

theorem generate_mcqs_length (g : RandGen) (kws : List Str) :
    (generate_mcqs g kws).length = 3 := by
  simp [generate_mcqs]

theorem mem_generate_mcqs {g : RandGen} {kws : List Str} {q : MCQ}
    (h : q ∈ generate_mcqs g kws) :
    ∃ i, i < 3 ∧ (generate_mcqs g kws).getD i ([], [], 0) = q := by
  obtain ⟨n, hn⟩ := List.mem_iff_get.mp h
  refine ⟨n.val, ?_, ?_⟩
  · have h3 := n.isLt
    have hl := generate_mcqs_length g kws
    omega
  · rw [List.getD_eq_get _ _ (by exact n.isLt)]
    exact hn

/-! ### Helper lemmas about keyword extraction and prompt building -/

theorem toNat_lowerChar (c : Char) :
    (lowerChar c).toNat = if isAsciiUpper c then c.toNat + 32 else c.toNat := by
  unfold lowerChar
  by_cases h : isAsciiUpper c = true
  · rw [if_pos h, if_pos h]
    have hb : 65 ≤ c.toNat ∧ c.toNat ≤ 90 := by
      unfold isAsciiUpper at h
      simpa using h
    have hv : (c.toNat + 32).isValidChar := Or.inl (by omega)
    rw [Char.ofNat, dif_pos hv]
    simp [Char.ofNatAux, Char.toNat, UInt32.toNat]
  · rw [if_neg h, if_neg h]

theorem isAsciiUpper_lowerChar (c : Char) : isAsciiUpper (lowerChar c) = false := by
  have ht := toNat_lowerChar c
  unfold isAsciiUpper at *
  by_cases h : (65 ≤ c.toNat && c.toNat ≤ 90) = true
  · rw [if_pos h] at ht
    simp only [Bool.and_eq_true, decide_eq_true_eq] at h
    simp only [Bool.and_eq_false_iff, decide_eq_false_iff_not]
    omega
  · rw [if_neg h] at ht
    simp only [Bool.and_eq_true, decide_eq_true_eq, not_and, Nat.not_le] at h
    simp only [Bool.and_eq_false_iff, decide_eq_false_iff_not, Nat.not_le]
    omega

theorem isAsciiLower_of_alpha_not_upper {c : Char}
    (ha : isAsciiAlpha c = true) (hu : isAsciiUpper c = false) :
    isAsciiLower c = true := by
  unfold isAsciiAlpha at ha
  rcases (Bool.or_eq_true _ _).mp ha with h | h
  · rw [h] at hu
    cases hu
  · exact h

theorem wordRunsAux_chars :
    ∀ (l acc : Str) (w : Str), w ∈ wordRunsAux acc l → ∀ c ∈ w, c ∈ acc ∨ c ∈ l := by
  intro l
  induction l with
  | nil =>
    intro acc w hw c hc
    cases acc with
    | nil => cases hw
    | cons a as =>
      rw [wordRunsAux] at hw
      simp only [List.isEmpty_cons, if_false, Bool.false_eq_true] at hw
      rcases List.mem_singleton.mp hw with rfl
      exact Or.inl (List.mem_reverse.mp hc)
  | cons x xs ih =>
    intro acc w hw c hc
    rw [wordRunsAux] at hw
    by_cases hx : isWordChar x = true
    · rw [if_pos hx] at hw
      rcases ih (x :: acc) w hw c hc with h | h
      · rcases List.mem_cons.mp h with rfl | h'
        · exact Or.inr (List.mem_cons_self _ _)
        · exact Or.inl h'
      · exact Or.inr (List.mem_cons_of_mem _ h)
    · rw [if_neg hx] at hw
      cases acc with
      | nil =>
        simp only [List.isEmpty_nil, if_true] at hw
        rcases ih [] w hw c hc with h | h
        · cases h
        · exact Or.inr (List.mem_cons_of_mem _ h)
      | cons a as =>
        simp only [List.isEmpty_cons, Bool.false_eq_true, if_false] at hw
        rcases List.mem_cons.mp hw with rfl | hw'
        · exact Or.inl (List.mem_reverse.mp hc)
        · rcases ih [] w hw' c hc with h | h
          · cases h
          · exact Or.inr (List.mem_cons_of_mem _ h)

theorem dedupAux_subset : ∀ (n : Nat) (l : List Str) (w : Str), w ∈ dedupAux n l → w ∈ l := by
  intro n
  induction n with
  | zero =>
    intro l w hw
    cases l with
    | nil => cases hw
    | cons x xs => cases hw
  | succ n ih =>
    intro l w hw
    cases l with
    | nil => cases hw
    | cons x xs =>
      rw [dedupAux] at hw
      rcases List.mem_cons.mp hw with rfl | hw'
      · exact List.mem_cons_self _ _
      · exact List.mem_cons_of_mem _ (List.mem_of_mem_filter (ih _ _ hw'))

theorem dedupAux_nodup : ∀ (n : Nat) (l : List Str), (dedupAux n l).Nodup := by
  intro n
  induction n with
  | zero =>
    intro l
    cases l with
    | nil => exact List.nodup_nil
    | cons x xs => exact List.nodup_nil
  | succ n ih =>
    intro l
    cases l with
    | nil => exact List.nodup_nil
    | cons x xs =>
      rw [dedupAux]
      refine List.nodup_cons.mpr ⟨?_, ih _⟩
      intro hx
      have hxf := dedupAux_subset n _ x hx
      have := List.of_mem_filter hxf
      simp at this

theorem listIndex_cons_ne {a x : Str} (xs : List Str) (h : x ≠ a) :
    listIndex a (x :: xs) = listIndex a xs + 1 := by
  simp [listIndex, h]

theorem listIndex_filter_lt (q : Str → Bool) :
    ∀ (xs : List Str) (a b : Str), a ∈ xs.filter q → b ∈ xs.filter q →
      listIndex a (xs.filter q) < listIndex b (xs.filter q) →
      listIndex a xs < listIndex b xs := by
  intro xs
  induction xs with
  | nil => intro a b ha _ _; cases ha
  | cons y ys ih =>
    intro a b ha hb hlt
    by_cases hq : q y = true
    · rw [List.filter_cons_of_pos hq] at ha hb hlt
      by_cases hya : y = a
      · subst hya
        by_cases hyb : y = b
        · subst hyb
          simp [listIndex] at hlt
        · rw [listIndex_cons_ne ys hyb]
          simp [listIndex]
      · by_cases hyb : y = b
        · subst hyb
          simp [listIndex, hya] at hlt
        · rw [listIndex_cons_ne _ hya, listIndex_cons_ne _ hyb] at hlt
          have ha' : a ∈ ys.filter q := by
            rcases List.mem_cons.mp ha with rfl | h
            · exact absurd rfl hya
            · exact h
          have hb' : b ∈ ys.filter q := by
            rcases List.mem_cons.mp hb with rfl | h
            · exact absurd rfl hyb
            · exact h
          rw [listIndex_cons_ne _ hya, listIndex_cons_ne _ hyb]
          have := ih a b ha' hb' (by omega)
          omega
    · rw [List.filter_cons_of_neg hq] at ha hb hlt
      have hya : y ≠ a := by
        intro e
        subst e
        exact hq (List.of_mem_filter ha)
      have hyb : y ≠ b := by
        intro e
        subst e
        exact hq (List.of_mem_filter hb)
      rw [listIndex_cons_ne _ hya, listIndex_cons_ne _ hyb]
      have := ih a b ha hb hlt
      omega

theorem dedupAux_pairwise : ∀ (n : Nat) (l : List Str),
    (dedupAux n l).Pairwise (fun a b => listIndex a l < listIndex b l) := by
  intro n
  induction n with
  | zero =>
    intro l
    cases l with
    | nil => exact List.Pairwise.nil
    | cons x xs => exact List.Pairwise.nil
  | succ n ih =>
    intro l
    cases l with
    | nil => exact List.Pairwise.nil
    | cons x xs =>
      rw [dedupAux]
      refine List.pairwise_cons.mpr ⟨?_, ?_⟩
      · intro b hb
        have hbf := dedupAux_subset n _ b hb
        have hqb : b ≠ x := by simpa using List.of_mem_filter hbf
        rw [listIndex_cons_ne xs (Ne.symm hqb)]
        simp [listIndex]
      · refine (ih (xs.filter (fun y => y ≠ x))).imp_of_mem ?_
        intro a b ha hb hab
        have haf := dedupAux_subset n _ a ha
        have hbf := dedupAux_subset n _ b hb
        have hqa : a ≠ x := by simpa using List.of_mem_filter haf
        have hqb : b ≠ x := by simpa using List.of_mem_filter hbf
        have := listIndex_filter_lt _ xs a b haf hbf hab
        rw [listIndex_cons_ne xs (Ne.symm hqa), listIndex_cons_ne xs (Ne.symm hqb)]
        omega

theorem sublist_pair_of_mem : ∀ {l : List Str} {a b : Str}, a ∈ l → b ∈ l → a ≠ b →
    List.Sublist [a, b] l ∨ List.Sublist [b, a] l := by
  intro l
  induction l with
  | nil => intro a b ha _ _; cases ha
  | cons x xs ih =>
    intro a b ha hb hne
    rcases List.mem_cons.mp ha with rfl | ha'
    · have hb' : b ∈ xs := by
        rcases List.mem_cons.mp hb with rfl | h
        · exact absurd rfl hne
        · exact h
      exact Or.inl (List.cons_sublist_cons.mpr (List.singleton_sublist.mpr hb'))
    · rcases List.mem_cons.mp hb with rfl | hb'
      · exact Or.inr (List.cons_sublist_cons.mpr (List.singleton_sublist.mpr ha'))
      · rcases ih ha' hb' hne with h | h
        · exact Or.inl (h.cons _)
        · exact Or.inr (h.cons _)

theorem listIndex_lt_of_pair_sublist : ∀ {l : List Str} {a b : Str}, l.Nodup →
    List.Sublist [a, b] l → listIndex a l < listIndex b l := by
  intro l
  induction l with
  | nil => intro a b _ h; cases h
  | cons x xs ih =>
    intro a b hnd hs
    have hx : x ∉ xs := (List.nodup_cons.mp hnd).1
    have hnd' : xs.Nodup := (List.nodup_cons.mp hnd).2
    cases hs with
    | cons _ h' =>
      have ha : a ∈ xs := h'.subset (by simp)
      have hb : b ∈ xs := h'.subset (by simp)
      have hax : x ≠ a := fun e => hx (e ▸ ha)
      have hbx : x ≠ b := fun e => hx (e ▸ hb)
      rw [listIndex_cons_ne _ hax, listIndex_cons_ne _ hbx]
      have := ih hnd' h'
      omega
    | cons₂ _ h' =>
      have hb : b ∈ xs := List.singleton_sublist.mp h'
      have hbx : x ≠ b := fun e => hx (e ▸ hb)
      rw [listIndex_cons_ne _ hbx]
      simp [listIndex]

theorem nodup_not_both_pair_sublist {l : List Str} {a b : Str} (hnd : l.Nodup)
    (h1 : List.Sublist [a, b] l) (h2 : List.Sublist [b, a] l) : False := by
  have ha := listIndex_lt_of_pair_sublist hnd h1
  have hb := listIndex_lt_of_pair_sublist hnd h2
  omega

theorem insertionSort_cntRel_stable (c : List Str) (d : List Str) (hnd : d.Nodup)
    (hord : d.Pairwise (fun a b => listIndex a c < listIndex b c)) :
    (List.insertionSort (cntRel c) d).Pairwise (fun a b =>
      c.count b < c.count a ∨
      (c.count a = c.count b ∧ listIndex a c < listIndex b c)) := by
  rw [List.pairwise_iff_forall_sublist]
  intro a b hab
  have hsorted : (List.insertionSort (cntRel c) d).Pairwise (cntRel c) :=
    List.sorted_insertionSort (cntRel c) d
  have hle : cntRel c a b := List.pairwise_iff_forall_sublist.mp hsorted hab
  have hnds : (List.insertionSort (cntRel c) d).Nodup :=
    (List.perm_insertionSort (cntRel c) d).nodup_iff.mpr hnd
  have hne : a ≠ b := List.pairwise_iff_forall_sublist.mp hnds hab
  rcases Nat.lt_or_ge (c.count b) (c.count a) with hlt | hge
  · exact Or.inl hlt
  · have heq : c.count a = c.count b := Nat.le_antisymm hge hle
    refine Or.inr ⟨heq, ?_⟩
    have hma : a ∈ d := (List.mem_insertionSort (cntRel c)).mp (hab.subset (by simp))
    have hmb : b ∈ d := (List.mem_insertionSort (cntRel c)).mp (hab.subset (by simp))
    rcases sublist_pair_of_mem hma hmb hne with hd | hd
    · exact List.pairwise_iff_forall_sublist.mp hord hd
    · exfalso
      have hba : List.Sublist [b, a] (List.insertionSort (cntRel c) d) :=
        List.pair_sublist_insertionSort (le_of_eq heq) hd
      exact nodup_not_both_pair_sublist hnds hab hba

theorem mem_kwCandidates_of_mem_keywords {text : Str} {n : Nat} {w : Str}
    (h : w ∈ extract_keywords text n) : w ∈ kwCandidates text := by
  unfold extract_keywords at h
  have h1 := (List.take_sublist _ _).subset h
  have h2 := (List.mem_insertionSort _).mp h1
  exact dedupAux_subset _ _ _ h2

theorem insertionSort_lenRel_head :
    ∀ (s : List Str), s ≠ [] → ∃ pre m post rest,
      s = pre ++ m :: post ∧ (∀ x ∈ pre, x.length < m.length) ∧
      (∀ x ∈ s, x.length ≤ m.length) ∧
      List.insertionSort lenRel s = m :: rest := by
  intro s
  induction s with
  | nil => intro h; exact absurd rfl h
  | cons x s' ih =>
    intro _
    by_cases hs' : s' = []
    · subst hs'
      exact ⟨[], x, [], [], rfl, by simp, by simp, rfl⟩
    · obtain ⟨pre, m, post, rest, hdec, hpre, hall, hsort⟩ := ih hs'
      by_cases hxm : lenRel x m
      · refine ⟨[], x, s', m :: rest, rfl, by simp, ?_, ?_⟩
        · intro y hy
          rcases List.mem_cons.mp hy with rfl | hy'
          · exact Nat.le_refl _
          · exact Nat.le_trans (hall y hy') hxm
        · show List.orderedInsert lenRel x (List.insertionSort lenRel s') = _
          rw [hsort]
          rw [List.orderedInsert, if_pos hxm]
      · refine ⟨x :: pre, m, post, List.orderedInsert lenRel x rest, ?_, ?_, ?_, ?_⟩
        · rw [hdec]
          rfl
        · intro y hy
          rcases List.mem_cons.mp hy with rfl | hy'
          · exact Nat.lt_of_not_le hxm
          · exact hpre y hy'
        · intro y hy
          rcases List.mem_cons.mp hy with rfl | hy'
          · exact Nat.le_of_lt (Nat.lt_of_not_le hxm)
          · exact hall y hy'
        · show List.orderedInsert lenRel x (List.insertionSort lenRel s') = _
          rw [hsort]
          rw [List.orderedInsert, if_neg hxm]

/-! ### Claim theorems -/

/-- C1: for every input document string (including the empty string) and
every behaviour of the random source, the pipeline `generate_from_text`
returns exactly 2 assignment prompt strings and exactly 3 multiple-choice
questions. -/
theorem C1_pipeline_counts (g : RandGen) (text : Str) :
    (generate_from_text g text).1.length = 2 ∧
    (generate_from_text g text).2.length = 3 :=
  ⟨rfl, generate_mcqs_length g (extract_keywords text 8)⟩

/-- C2: for every keyword input, every behaviour of the random source and
every question index `i < 3`, the recorded correct-option index of
question `i` of `generate_mcqs` is a valid index, the option at that
index equals the intended correct answer `pool[i % len(pool)]`, that
answer occurs exactly once in the options list, and the options list has
no duplicates. -/
theorem C2_correct_option_wellformed (g : RandGen) (kws : List Str) (i : Nat)
    (h : i < 3) :
    ((generate_mcqs g kws).getD i ([], [], 0)).2.2 <
      ((generate_mcqs g kws).getD i ([], [], 0)).2.1.length ∧
    ((generate_mcqs g kws).getD i ([], [], 0)).2.1.getD
      ((generate_mcqs g kws).getD i ([], [], 0)).2.2 [] =
      (mcqPool kws).getD (i % (mcqPool kws).length) [] ∧
    ((generate_mcqs g kws).getD i ([], [], 0)).2.1.count
      ((mcqPool kws).getD (i % (mcqPool kws).length) []) = 1 ∧
    ((generate_mcqs g kws).getD i ([], [], 0)).2.1.Nodup := by
  obtain ⟨_, h2, _, h4, _, _, h7, h8⟩ := mcq_props g kws i h
  exact ⟨h7, h8, h4, h2⟩

/-- Witness for C2 at a concrete input. -/
theorem C2_witness :
    ((generate_mcqs idRand []).getD 0 ([], [], 0)).2.1.count
      ((mcqPool []).getD (0 % (mcqPool []).length) []) = 1 :=
  (C2_correct_option_wellformed idRand [] 0 (by decide)).2.2.1

/-- C6: the working pool of `generate_mcqs` is the keyword sequence
verbatim when non-empty and the fixed fallback pool otherwise, and for
every `i < 3` the recorded correct answer (the option at the recorded
correct index) of question `i` equals `pool[i % len(pool)]`, which is
also the term referenced by the question text. -/
theorem C6_pool_selection (g : RandGen) (kws : List Str) (i : Nat) (h : i < 3) :
    (kws ≠ [] → mcqPool kws = kws) ∧
    mcqPool [] = fallbackPool ∧
    ((generate_mcqs g kws).getD i ([], [], 0)).1 =
      mkQuestionText ((mcqPool kws).getD (i % (mcqPool kws).length) []) ∧
    ((generate_mcqs g kws).getD i ([], [], 0)).2.1.getD
      ((generate_mcqs g kws).getD i ([], [], 0)).2.2 [] =
      (mcqPool kws).getD (i % (mcqPool kws).length) [] := by
  obtain ⟨h1, _, _, _, _, _, _, h8⟩ := mcq_props g kws i h
  refine ⟨?_, rfl, h1, h8⟩
  intro hne
  cases kws with
  | nil => exact absurd rfl hne
  | cons x xs => rfl

/-- Witness for C6 at a concrete input. -/
theorem C6_witness :
    ((generate_mcqs idRand [("cat").data]).getD 2 ([], [], 0)).1 =
      mkQuestionText ((mcqPool [("cat").data]).getD
        (2 % (mcqPool [("cat").data]).length) []) :=
  (C6_pool_selection idRand [("cat").data] 2 (by decide)).2.2.1

/-- C7: the pipeline is total and degrades gracefully: on every input and
every behaviour of the random source it returns 2 prompts and 3
questions, and every question carries between 1 and 4 options (fewer
than 4 exactly when the 30-attempt distractor budget fails to yield 3
distinct distractors) with a valid correct-option index. -/
theorem C7_no_failure (g : RandGen) (text : Str) :
    (generate_from_text g text).1.length = 2 ∧
    (generate_from_text g text).2.length = 3 ∧
    ∀ q ∈ (generate_from_text g text).2,
      1 ≤ q.2.1.length ∧ q.2.1.length ≤ 4 ∧ q.2.2 < q.2.1.length := by
  refine ⟨rfl, generate_mcqs_length g _, ?_⟩
  intro q hq
  obtain ⟨i, hi, heq⟩ := mem_generate_mcqs hq
  obtain ⟨_, _, _, _, h5, h6, h7, _⟩ := mcq_props g (extract_keywords text 8) i hi
  rw [← heq]
  exact ⟨h5, h6, h7⟩

/-- Witness for C7 at a concrete input. -/
theorem C7_witness :
    1 ≤ (((generate_from_text idRand ([ 'h', 'i' ])).2.getD 0 ([], [], 0))).2.1.length ∧
    (((generate_from_text idRand ([ 'h', 'i' ])).2.getD 0 ([], [], 0))).2.1.length ≤ 4 ∧
    (((generate_from_text idRand ([ 'h', 'i' ])).2.getD 0 ([], [], 0))).2.2 <
      (((generate_from_text idRand ([ 'h', 'i' ])).2.getD 0 ([], [], 0))).2.1.length :=
  (C7_no_failure idRand ([ 'h', 'i' ])).2.2 _ (by decide)

/-- C10: for every keyword input, every behaviour of the random source
and every `i < 3`, question `i` of `generate_mcqs` has between 1 and 4
options, and the intended correct answer is among the options. -/
theorem C10_options_bounds (g : RandGen) (kws : List Str) (i : Nat) (h : i < 3) :
    1 ≤ ((generate_mcqs g kws).getD i ([], [], 0)).2.1.length ∧
    ((generate_mcqs g kws).getD i ([], [], 0)).2.1.length ≤ 4 ∧
    (mcqPool kws).getD (i % (mcqPool kws).length) [] ∈
      ((generate_mcqs g kws).getD i ([], [], 0)).2.1 := by
  obtain ⟨_, _, h3, _, h5, h6, _, _⟩ := mcq_props g kws i h
  exact ⟨h5, h6, h3⟩

/-- Witness for C10 at a concrete input. -/
theorem C10_witness :
    (mcqPool [("dog").data]).getD (1 % (mcqPool [("dog").data]).length) [] ∈
      ((generate_mcqs idRand [("dog").data]).getD 1 ([], [], 0)).2.1 :=
  (C10_options_bounds idRand [("dog").data] 1 (by decide)).2.2

/-- C8: the splitter, extractor and prompt builder are deterministic and
independent of the random source: across any two behaviours of the
random source, the pipeline produces identical assignment prompts (which
are computed from `split_sentences`, `extract_keywords` and
`make_assignment_prompts` alone), and even the question texts of the
quiz coincide. -/
theorem C8_deterministic_components (g₁ g₂ : RandGen) (text : Str) :
    (generate_from_text g₁ text).1 = (generate_from_text g₂ text).1 ∧
    (generate_from_text g₁ text).1 =
      make_assignment_prompts (split_sentences text) (extract_keywords text 8) ∧
    (generate_from_text g₁ text).2.map (fun q => q.1) =
      (generate_from_text g₂ text).2.map (fun q => q.1) :=
  ⟨rfl, rfl, rfl⟩

/-- C3 counterexample: it is not the case that, under every behaviour of
the random source, every question generated from the empty keyword list
has 4 options: an adversarial but possible behaviour (every choice picks
the first element of the shuffled universe) leaves question 0 with a
single option. -/
theorem C3_counterexample :
    ¬ ∀ g : RandGen, ∀ q ∈ generate_mcqs g ([] : List Str), q.2.1.length = 4 := by
  intro hall
  have hmem : ((generate_mcqs idRand []).getD 0 ([], [], 0)) ∈ generate_mcqs idRand [] := by
    decide
  have h4 := hall idRand _ hmem
  exact absurd h4 (by decide)

/-- C3 (amended): on empty-string input, `split_sentences` returns the
empty sequence, `extract_keywords` returns the empty sequence,
`make_assignment_prompts` produces both fixed fallback templates, and
`generate_mcqs` falls back to the fixed 5-term pool and returns exactly
3 questions each with **at most** 4 options (4 whenever the distractor
sampling finds 3 distinct distractors within its 30-attempt budget, but
possibly fewer), for every behaviour of the random source. -/
theorem C3_empty_input (g : RandGen) :
    split_sentences [] = [] ∧
    extract_keywords [] 8 = [] ∧
    make_assignment_prompts [] [] = [fallbackExcerptPrompt, fallbackComparePrompt] ∧
    mcqPool [] = fallbackPool ∧
    (generate_mcqs g []).length = 3 ∧
    ∀ q ∈ generate_mcqs g [], 1 ≤ q.2.1.length ∧ q.2.1.length ≤ 4 := by
  refine ⟨rfl, rfl, rfl, rfl, generate_mcqs_length g [], ?_⟩
  intro q hq
  obtain ⟨i, hi, heq⟩ := mem_generate_mcqs hq
  obtain ⟨_, _, _, _, h5, h6, _, _⟩ := mcq_props g [] i hi
  rw [← heq]
  exact ⟨h5, h6⟩

/-- Witness for the amended C3 at a concrete behaviour. -/
theorem C3_witness :
    1 ≤ ((generate_mcqs idRand []).getD 1 ([], [], 0)).2.1.length ∧
    ((generate_mcqs idRand []).getD 1 ([], [], 0)).2.1.length ≤ 4 :=
  (C3_empty_input idRand).2.2.2.2.2 _ (by decide)

/-- C4: every keyword returned by `extract_keywords` is a lowercase
alphabetic word of length ≥ 3 outside the stopword set; the returned
list has at most `top_n` elements, no duplicates, and is ordered by
non-increasing frequency in the candidate token stream, with frequency
ties broken by first-occurrence position in that stream. -/
theorem C4_extract_keywords_spec (text : Str) (top_n : Nat) :
    (∀ w ∈ extract_keywords text top_n,
        w.all isAsciiLower = true ∧ 3 ≤ w.length ∧ w ∉ stopwords) ∧
    (extract_keywords text top_n).length ≤ top_n ∧
    (extract_keywords text top_n).Nodup ∧
    (extract_keywords text top_n).Pairwise (fun a b =>
      (kwCandidates text).count b < (kwCandidates text).count a ∨
      ((kwCandidates text).count a = (kwCandidates text).count b ∧
        listIndex a (kwCandidates text) < listIndex b (kwCandidates text))) := by
  refine ⟨?_, List.length_take_le _ _, ?_, ?_⟩
  · intro w hw
    have hc := mem_kwCandidates_of_mem_keywords hw
    have hstop : w ∉ stopwords := by simpa using List.of_mem_filter hc
    have hfa : w ∈ findAlphaWords text := List.mem_of_mem_filter hc
    have hprops := List.of_mem_filter hfa
    rw [Bool.and_eq_true] at hprops
    have hlen : 3 ≤ w.length := by simpa using hprops.1
    have halpha := hprops.2
    have hrun : w ∈ wordRuns (text.map lowerChar) := List.mem_of_mem_filter hfa
    refine ⟨?_, hlen, hstop⟩
    rw [List.all_eq_true]
    intro c hcw
    rcases wordRunsAux_chars _ [] w hrun c hcw with h | h
    · cases h
    · obtain ⟨c₀, _, rfl⟩ := List.mem_map.mp h
      have halpha' : isAsciiAlpha (lowerChar c₀) = true := by
        rw [List.all_eq_true] at halpha
        exact halpha _ hcw
      exact isAsciiLower_of_alpha_not_upper halpha' (isAsciiUpper_lowerChar c₀)
  · exact (List.take_sublist _ _).nodup
      ((List.perm_insertionSort _ _).nodup_iff.mpr (dedupAux_nodup _ _))
  · exact List.Pairwise.sublist (List.take_sublist _ _)
      (insertionSort_cntRel_stable (kwCandidates text) (dedupFirst (kwCandidates text))
        (dedupAux_nodup _ _) (dedupAux_pairwise _ _))

/-- Witness for C4 at a concrete input. -/
theorem C4_witness :
    (("bbb").data).all isAsciiLower = true ∧ 3 ≤ (("bbb").data).length ∧
    ("bbb").data ∉ stopwords :=
  (C4_extract_keywords_spec (("aa bbb ccc bbb").data) 8).1 (("bbb").data) (by decide)

/-- C5: `make_assignment_prompts` returns exactly two strings; the first
embeds the longest sentence (ties broken by first occurrence) truncated
to 240 characters with trailing whitespace trimmed, or the fixed
fallback when the sentence list is empty; the second embeds the top two
keywords in the compare-and-contrast template when at least 2 keywords
exist, and otherwise is the fixed fallback. -/
theorem C5_assignment_prompts (sentences keywords : List Str) :
    (make_assignment_prompts sentences keywords).length = 2 ∧
    (sentences = [] →
      (make_assignment_prompts sentences keywords).getD 0 [] = fallbackExcerptPrompt) ∧
    (sentences ≠ [] → ∃ pre m post, sentences = pre ++ m :: post ∧
      (∀ x ∈ pre, x.length < m.length) ∧ (∀ x ∈ sentences, x.length ≤ m.length) ∧
      (make_assignment_prompts sentences keywords).getD 0 [] =
        mkExcerpt (pyRStrip (m.take 240))) ∧
    (2 ≤ keywords.length →
      (make_assignment_prompts sentences keywords).getD 1 [] =
        mkCompare (keywords.getD 0 []) (keywords.getD 1 [])) ∧
    (keywords.length < 2 →
      (make_assignment_prompts sentences keywords).getD 1 [] = fallbackComparePrompt) := by
  refine ⟨rfl, ?_, ?_, ?_, ?_⟩
  · intro h
    subst h
    rfl
  · intro h
    obtain ⟨pre, m, post, rest, hdec, hpre, hall, hsort⟩ := insertionSort_lenRel_head sentences h
    refine ⟨pre, m, post, hdec, hpre, hall, ?_⟩
    unfold make_assignment_prompts
    dsimp only
    rw [hsort]
    rfl
  · intro h
    unfold make_assignment_prompts
    dsimp only
    rw [if_pos h]
    rfl
  · intro h
    unfold make_assignment_prompts
    dsimp only
    rw [if_neg (show ¬ 2 ≤ keywords.length by omega)]
    rfl

/-- Witness for C5 at a concrete input. -/
theorem C5_witness :
    ∃ pre m post, ([ [ 'a', 'b' ], [ 'c' ] ] : List Str) = pre ++ m :: post ∧
      (∀ x ∈ pre, x.length < m.length) ∧
      (∀ x ∈ ([ [ 'a', 'b' ], [ 'c' ] ] : List Str), x.length ≤ m.length) ∧
      (make_assignment_prompts [ [ 'a', 'b' ], [ 'c' ] ] []).getD 0 [] =
        mkExcerpt (pyRStrip (m.take 240)) :=
  (C5_assignment_prompts [ [ 'a', 'b' ], [ 'c' ] ] []).2.2.1 (by decide)

/-! ### Helper lemmas about sentence splitting -/

theorem hasCutPair_cons_tail {c : Char} {cs : Str} (h : hasCutPair cs = true) :
    hasCutPair (c :: cs) = true := by
  cases cs with
  | nil => cases h
  | cons d ds =>
    rw [hasCutPair, h]
    simp

theorem hasCutPair_append_cut :
    ∀ (u : Str) (a b : Char) (v : Str), isTerm a = true → isPySpace b = true →
      hasCutPair (u ++ a :: b :: v) = true := by
  intro u
  induction u with
  | nil =>
    intro a b v ha hb
    rw [List.nil_append, hasCutPair, ha, hb]
    simp
  | cons x xs ih =>
    intro a b v ha hb
    rw [List.cons_append]
    exact hasCutPair_cons_tail (ih a b v ha hb)

theorem hasCutPair_decomp :
    ∀ (l : Str), hasCutPair l = true →
      ∃ u a b v, l = u ++ a :: b :: v ∧ isTerm a = true ∧ isPySpace b = true := by
  intro l
  induction l with
  | nil => intro h; cases h
  | cons x xs ih =>
    intro h
    cases xs with
    | nil => cases h
    | cons y ys =>
      rw [hasCutPair] at h
      rcases (Bool.or_eq_true _ _).mp h with h' | h'
      · rw [Bool.and_eq_true] at h'
        exact ⟨[], x, y, ys, rfl, h'.1, h'.2⟩
      · obtain ⟨u, a, b, v, heq, ha, hb⟩ := ih h'
        exact ⟨x :: u, a, b, v, by rw [List.cons_append, ← heq], ha, hb⟩

theorem hasCutPair_of_sub {m l : Str} (hm : List.IsInfix m l) (h : hasCutPair m = true) :
    hasCutPair l = true := by
  obtain ⟨u, a, b, v, rfl, ha, hb⟩ := hasCutPair_decomp m h
  obtain ⟨s, t, rfl⟩ := hm
  have heq : s ++ (u ++ a :: b :: v) ++ t = (s ++ u) ++ a :: b :: (v ++ t) := by
    simp
  rw [heq]
  exact hasCutPair_append_cut (s ++ u) a b (v ++ t) ha hb

theorem pyStrip_prefix_dropWhile (l : Str) :
    List.IsPrefix (pyStrip l) (l.dropWhile isPySpace) := by
  unfold pyStrip
  have h1 : List.IsSuffix ((l.dropWhile isPySpace).reverse.dropWhile isPySpace)
      ((l.dropWhile isPySpace).reverse) := List.dropWhile_suffix _
  have h2 := List.reverse_prefix.mpr h1
  rwa [List.reverse_reverse] at h2

theorem pyStrip_sub (l : Str) : List.IsInfix (pyStrip l) l :=
  List.IsInfix.trans (pyStrip_prefix_dropWhile l).isInfix (List.dropWhile_suffix _).isInfix

theorem head_dropWhile (p : Char → Bool) :
    ∀ (l : Str) (c : Char) (cs : Str), l.dropWhile p = c :: cs → p c = false := by
  intro l
  induction l with
  | nil => intro c cs h; cases h
  | cons x xs ih =>
    intro c cs h
    by_cases hx : p x = true
    · rw [List.dropWhile_cons_of_pos hx] at h
      exact ih c cs h
    · rw [List.dropWhile_cons_of_neg hx] at h
      cases h
      exact Bool.eq_false_iff.mpr hx

theorem pyStrip_head {l : Str} {c : Char} {cs : Str} (h : pyStrip l = c :: cs) :
    isPySpace c = false := by
  obtain ⟨r, hr⟩ := pyStrip_prefix_dropWhile l
  rw [h] at hr
  exact head_dropWhile isPySpace l c (cs ++ r) (by rw [← hr]; rfl)

theorem pyStrip_rev_head {l : Str} {c : Char} {cs : Str}
    (h : (pyStrip l).reverse = c :: cs) : isPySpace c = false := by
  unfold pyStrip at h
  rw [List.reverse_reverse] at h
  exact head_dropWhile isPySpace _ c cs h

theorem pyStrip_ne_nil {l : Str} {c : Char} (hc : c ∈ l) (hsp : isPySpace c = false) :
    pyStrip l ≠ [] := by
  intro h
  unfold pyStrip at h
  rw [List.reverse_eq_nil_iff] at h
  rw [List.dropWhile_eq_nil_iff] at h
  have hall : ∀ x ∈ l.dropWhile isPySpace, isPySpace x = true := by
    intro x hx
    exact h x (List.mem_reverse.mpr hx)
  have hsplit := List.takeWhile_append_dropWhile isPySpace l
  rcases List.mem_append.mp (by rw [hsplit]; exact hc :
      c ∈ l.takeWhile isPySpace ++ l.dropWhile isPySpace) with h' | h'
  · rw [List.mem_takeWhile_imp h'] at hsp
    cases hsp
  · rw [hall c h'] at hsp
    cases hsp

theorem collapseAux_cons_nonspace {c : Char} (b : Bool) (cs : Str)
    (h : isPySpace c = false) :
    collapseAux b (c :: cs) = c :: collapseAux false cs := by
  rw [collapseAux, h]
  simp

theorem collapseAux_ne_nil :
    ∀ (l : Str) (b : Bool) (c : Char), c ∈ l → isPySpace c = false →
      collapseAux b l ≠ [] := by
  intro l
  induction l with
  | nil => intro b c hc; cases hc
  | cons x xs ih =>
    intro b c hc hsp
    by_cases hx : isPySpace x = true
    · have hcx : c ∈ xs := by
        rcases List.mem_cons.mp hc with rfl | h'
        · rw [hx] at hsp
          cases hsp
        · exact h'
      rw [collapseAux, hx]
      simp only [if_true]
      cases b with
      | true => exact ih true c hcx hsp
      | false =>
        simp only [Bool.false_eq_true, if_false]
        exact List.cons_ne_nil _ _
    · rw [collapseAux_cons_nonspace b xs (Bool.eq_false_iff.mpr hx)]
      exact List.cons_ne_nil _ _

theorem getLastD_irrel (l : Str) (h : l ≠ []) (d₁ d₂ : Char) :
    l.getLastD d₁ = l.getLastD d₂ := by
  cases l with
  | nil => exact absurd rfl h
  | cons x xs => rw [List.getLastD_cons, List.getLastD_cons]

theorem getLastD_mem : ∀ (l : Str) (x : Char), (x :: l).getLastD x ∈ x :: l := by
  intro l
  induction l with
  | nil => intro x; simp
  | cons y ys ih =>
    intro x
    rw [List.getLastD_cons]
    exact List.mem_cons_of_mem _ (ih y)

theorem collapseAux_getLastD :
    ∀ (l : Str) (b : Bool) (d : Char), isPySpace d = false →
      isPySpace (l.getLastD d) = false →
      isPySpace ((collapseAux b l).getLastD d) = false := by
  intro l
  induction l with
  | nil => intro b d hd _; exact hd
  | cons c cs ih =>
    intro b d hd hlast
    rw [List.getLastD_cons] at hlast
    by_cases hc : isPySpace c = true
    · have hcs : cs ≠ [] := by
        intro h
        subst h
        simp only [List.getLastD] at hlast
        rw [hc] at hlast
        cases hlast
      have hlast' : isPySpace (cs.getLastD d) = false := by
        rw [getLastD_irrel cs hcs d c]
        exact hlast
      rw [collapseAux, hc]
      simp only [if_true]
      cases b with
      | true => exact ih true d hd hlast'
      | false =>
        simp only [Bool.false_eq_true, if_false]
        have hX : collapseAux true cs ≠ [] := by
          cases hcs' : cs with
          | nil => exact absurd hcs' hcs
          | cons e es =>
            have hmem : (e :: es).getLastD d ∈ e :: es := by
              rw [getLastD_irrel _ (List.cons_ne_nil e es) d e]
              exact getLastD_mem es e
            refine collapseAux_ne_nil (e :: es) true _ hmem ?_
            rw [← hcs']
            exact hlast'
        rw [List.getLastD_cons]
        rw [getLastD_irrel _ hX ' ' d]
        exact ih true d hd hlast'
    · rw [collapseAux_cons_nonspace b cs (Bool.eq_false_iff.mpr hc)]
      rw [List.getLastD_cons]
      cases hcs : cs with
      | nil =>
        subst hcs
        simp only [collapseAux, List.getLastD]
        exact Bool.eq_false_iff.mpr hc
      | cons e es =>
        have hcsne : cs ≠ [] := by rw [hcs]; exact List.cons_ne_nil _ _
        rw [← hcs]
        have hlast' : isPySpace (cs.getLastD d) = false := by
          rw [getLastD_irrel cs hcsne d c]
          exact hlast
        have hX : collapseAux false cs ≠ [] := by
          have hmem : cs.getLastD d ∈ cs := by
            rw [hcs]
            rw [getLastD_irrel _ (List.cons_ne_nil e es) d e]
            exact getLastD_mem es e
          exact collapseAux_ne_nil cs false _ hmem hlast'
        rw [getLastD_irrel _ hX c d]
        exact ih false d hd hlast'

theorem collapse_head_space :
    ∀ (cs : Str) (d : Char) (ds : Str), collapseAux false cs = d :: ds →
      isPySpace d = true → ∃ e es, cs = e :: es ∧ isPySpace e = true := by
  intro cs d ds heq hd
  cases cs with
  | nil => cases heq
  | cons e es =>
    by_cases he : isPySpace e = true
    · exact ⟨e, es, rfl, he⟩
    · rw [collapseAux_cons_nonspace false es (Bool.eq_false_iff.mpr he)] at heq
      cases heq
      rw [hd] at he
      exact absurd rfl he

theorem hasCutPair_collapseAux :
    ∀ (l : Str) (b : Bool), hasCutPair (collapseAux b l) = true → hasCutPair l = true := by
  intro l
  induction l with
  | nil => intro b h; cases h
  | cons c cs ih =>
    intro b h
    by_cases hc : isPySpace c = true
    · rw [collapseAux, hc] at h
      simp only [if_true] at h
      cases b with
      | true => exact hasCutPair_cons_tail (ih true h)
      | false =>
        simp only [Bool.false_eq_true, if_false] at h
        cases hX : collapseAux true cs with
        | nil =>
          rw [hX] at h
          cases h
        | cons d ds =>
          rw [hX, hasCutPair] at h
          have hterm : isTerm ' ' = false := by decide
          rw [hterm] at h
          simp only [Bool.false_and, Bool.false_or] at h
          rw [← hX] at h
          exact hasCutPair_cons_tail (ih true h)
    · rw [collapseAux_cons_nonspace b cs (Bool.eq_false_iff.mpr hc)] at h
      cases hX : collapseAux false cs with
      | nil =>
        rw [hX] at h
        cases h
      | cons d ds =>
        rw [hX, hasCutPair] at h
        rcases (Bool.or_eq_true _ _).mp h with h' | h'
        · rw [Bool.and_eq_true] at h'
          obtain ⟨e, es, rfl, he⟩ := collapse_head_space cs d ds hX h'.2
          rw [hasCutPair, h'.1, he]
          simp
        · rw [← hX] at h'
          exact hasCutPair_cons_tail (ih false h')



theorem splitSentAux_cons (acc : Str) (c : Char) (cs : Str) :
    splitSentAux acc (c :: cs) =
      if isPySpace c && accEndsTerm acc then acc.reverse :: splitSentAux [] cs
      else splitSentAux (c :: acc) cs := rfl

theorem splitSentAux_no_cut :
    ∀ (rest acc : Str), hasCutPair (acc.reverse ++ rest) = false →
      splitSentAux acc rest = [acc.reverse ++ rest] := by
  intro rest
  induction rest with
  | nil =>
    intro acc _
    rw [List.append_nil]
    rfl
  | cons c cs ih =>
    intro acc h
    rw [splitSentAux_cons]
    have hcond : (isPySpace c && accEndsTerm acc) = false := by
      cases acc with
      | nil => simp [accEndsTerm]
      | cons t acc' =>
        by_cases hsp : isPySpace c = true
        · by_cases ht : isTerm t = true
          · exfalso
            have heq : (t :: acc').reverse ++ c :: cs = acc'.reverse ++ t :: c :: cs := by
              simp
            rw [heq, hasCutPair_append_cut acc'.reverse t c cs ht hsp] at h
            cases h
          · rw [accEndsTerm, Bool.eq_false_iff.mpr ht, Bool.and_false]
        · rw [Bool.eq_false_iff.mpr hsp, Bool.false_and]
    rw [hcond]
    simp only [Bool.false_eq_true, if_false]
    have heq : (c :: acc).reverse ++ cs = acc.reverse ++ c :: cs := by simp
    rw [ih (c :: acc) (by rw [heq]; exact h), heq]

theorem splitSentAux_first :
    ∀ (rest acc : Str), ∃ tl parts, splitSentAux acc rest = (acc.reverse ++ tl) :: parts := by
  intro rest
  induction rest with
  | nil =>
    intro acc
    exact ⟨[], [], by rw [List.append_nil]; rfl⟩
  | cons c cs ih =>
    intro acc
    rw [splitSentAux_cons]
    by_cases hcond : (isPySpace c && accEndsTerm acc) = true
    · rw [if_pos hcond]
      exact ⟨[], splitSentAux [] cs, by rw [List.append_nil]⟩
    · rw [if_neg hcond]
      obtain ⟨tl, parts, heq⟩ := ih (c :: acc)
      refine ⟨c :: tl, parts, ?_⟩
      rw [heq]
      simp

theorem split_sentences_of_strip_nil {text : Str} (h : pyStrip text = []) :
    split_sentences text = [] := by
  unfold split_sentences
  rw [h]
  rfl

theorem split_sentences_ne_nil {text : Str} (h : pyStrip text ≠ []) :
    split_sentences text ≠ [] := by
  obtain ⟨c, cs, hps⟩ := List.exists_cons_of_ne_nil h
  have hhead : isPySpace c = false := pyStrip_head hps
  unfold split_sentences
  dsimp only
  rw [hps]
  rw [show collapseWS (c :: cs) = c :: collapseAux false cs from
    collapseAux_cons_nonspace false cs hhead]
  rw [splitSentAux_cons]
  simp only [accEndsTerm, Bool.and_false, Bool.false_eq_true, if_false]
  obtain ⟨tl, parts, heq⟩ := splitSentAux_first (collapseAux false cs) [c]
  rw [heq]
  have hrev : ([c] : Str).reverse ++ tl = c :: tl := by simp
  rw [hrev]
  intro hnil
  have hin : pyStrip (c :: tl) ∈
      (((c :: tl) :: parts).map pyStrip).filter (fun p => !p.isEmpty) := by
    rw [List.mem_filter]
    constructor
    · exact List.mem_map_of_mem _ (List.mem_cons_self _ _)
    · have hne := pyStrip_ne_nil (List.mem_cons_self c tl) hhead
      simpa using hne
  rw [hnil] at hin
  cases hin

theorem pyStrip_eq_self {X : Str} (h1 : X.dropWhile isPySpace = X)
    (h2 : X.reverse.dropWhile isPySpace = X.reverse) : pyStrip X = X := by
  show ((X.dropWhile isPySpace).reverse.dropWhile isPySpace).reverse = X
  rw [h1, h2, List.reverse_reverse]

theorem split_sentences_no_cut {text : Str} (h1 : pyStrip text ≠ [])
    (h2 : hasCutPair text = false) :
    split_sentences text = [collapseWS (pyStrip text)] := by
  have hcs : hasCutPair (pyStrip text) = false := by
    by_cases hx : hasCutPair (pyStrip text) = true
    · rw [hasCutPair_of_sub (pyStrip_sub text) hx] at h2
      cases h2
    · exact Bool.eq_false_iff.mpr hx
  have hct : hasCutPair (collapseWS (pyStrip text)) = false := by
    by_cases hx : hasCutPair (collapseWS (pyStrip text)) = true
    · rw [hasCutPair_collapseAux (pyStrip text) false hx] at hcs
      cases hcs
    · exact Bool.eq_false_iff.mpr hx
  obtain ⟨c, cs, hps⟩ := List.exists_cons_of_ne_nil h1
  have hhead : isPySpace c = false := pyStrip_head hps
  have htc : collapseWS (pyStrip text) = c :: collapseAux false cs := by
    rw [hps]
    exact collapseAux_cons_nonspace false cs hhead
  have hsplit : splitSentAux [] (collapseWS (pyStrip text)) =
      [collapseWS (pyStrip text)] := by
    have haux := splitSentAux_no_cut (collapseWS (pyStrip text)) [] (by simpa using hct)
    simpa using haux
  have hstrip : pyStrip (collapseWS (pyStrip text)) = collapseWS (pyStrip text) := by
    refine pyStrip_eq_self ?_ ?_
    · rw [htc]
      exact List.dropWhile_cons_of_neg (by simp [hhead])
    · cases hrev : (collapseWS (pyStrip text)).reverse with
      | nil => rfl
      | cons d ds =>
        have hgl : (collapseWS (pyStrip text)).getLastD 'a' = d := by
          rw [List.getLastD_eq_getLast?]
          have hsome : (collapseWS (pyStrip text)).getLast? = some d := by
            rw [← List.head?_reverse, hrev]
            rfl
          rw [hsome]
          rfl
        have hlast_ps : isPySpace ((pyStrip text).getLastD 'a') = false := by
          cases hrev2 : (pyStrip text).reverse with
          | nil =>
            rw [List.reverse_eq_nil_iff] at hrev2
            exact absurd hrev2 h1
          | cons e es =>
            have he := pyStrip_rev_head hrev2
            have hgl2 : (pyStrip text).getLastD 'a' = e := by
              rw [List.getLastD_eq_getLast?, ← List.head?_reverse, hrev2]
              rfl
            rw [hgl2]
            exact he
        have hd : isPySpace d = false := by
          rw [← hgl]
          exact collapseAux_getLastD (pyStrip text) false 'a' (by decide) hlast_ps
        exact List.dropWhile_cons_of_neg (by simp [hd])
  unfold split_sentences
  dsimp only
  rw [hsplit]
  simp only [List.map_cons, List.map_nil, hstrip]
  have htne : collapseWS (pyStrip text) ≠ [] := by
    rw [htc]
    exact List.cons_ne_nil _ _
  rw [List.filter_cons_of_pos (by simpa using htne)]
  rfl




/-- C9 counterexample: the claim quantifies over all non-empty texts, but
the one-space text is non-empty, contains no terminator-followed-by-
whitespace, and `split_sentences` still returns the empty list rather
than one whitespace-normalised sentence. -/
theorem C9_counterexample :
    ¬ ∀ text : Str, text ≠ [] → hasCutPair text = false →
        split_sentences text = [collapseWS (pyStrip text)] := by
  intro h
  have hx := h [ ' ' ] (by decide) (by decide)
  revert hx
  decide

/-- C9 (amended): `split_sentences` returns a non-empty list iff the
whitespace-trimmed input is non-empty; and for every text whose trimmed
form is non-empty and which contains no sentence terminator followed by
whitespace, it returns exactly one sentence, the whole
whitespace-normalised (trimmed and space-collapsed) string. -/
theorem C9_split_sentences_shape (text : Str) :
    (split_sentences text ≠ [] ↔ pyStrip text ≠ []) ∧
    (pyStrip text ≠ [] → hasCutPair text = false →
      split_sentences text = [collapseWS (pyStrip text)]) := by
  constructor
  · constructor
    · intro h
      by_cases hp : pyStrip text = []
      · exact absurd (split_sentences_of_strip_nil hp) h
      · exact hp
    · exact split_sentences_ne_nil
  · exact split_sentences_no_cut

/-- Witness for the amended C9 at a concrete input. -/
theorem C9_witness :
    split_sentences (("hello world").data) ≠ [] ∧
    split_sentences (("hello world").data) =
      [collapseWS (pyStrip (("hello world").data))] :=
  ⟨(C9_split_sentences_shape (("hello world").data)).1.mpr (by decide),
   (C9_split_sentences_shape (("hello world").data)).2 (by decide) (by decide)⟩

end AQG
